import Mathlib

/-!
# Verification of the Dialogflow entity flattener (`src/main.go`)

Shallow embedding of `extractDialogflowEntities` and of the part of `processNLP`
that builds the entity table, followed by the theorems about them.

Conventions of the embedding

* A Go `float64` is `Float64`: a finite value `(-1)^neg * mant * 2^exp`, an infinity or NaN.
* A Go `map[string]T` is an association list with pairwise distinct keys.  The order of the
  list is the order in which one execution of `for k, v := range m` visits the entries; the Go
  language leaves that order unspecified, so another execution on the same map is a
  permutation of the list.
* A `*structpb.Value` is `Value`; the nil pointer and a message whose `Kind` is unset are
  constructors of their own.
-/

namespace DialogflowBot

/-! ## Go numbers and the `strconv` functions called by the source -/

/-- A Go `float64`: `finite neg mant exp` is the number `(-1)^neg * mant * 2^exp` (the machine
values are those with `mant < 2^53` and `-1074 ≤ exp ≤ 971`; the sign of zero is kept). -/
inductive Float64 where
  | finite (neg : Bool) (mant : Nat) (exp : Int)
  | inf (neg : Bool)
  | nan
  deriving DecidableEq, Repr

namespace Float64

/-- The zero value of `float64`, returned by the protobuf getters when the kind does not match. -/
def zero : Float64 := .finite false 0 0

/-- The rational number denoted by a finite `float64` (0 for the non-finite ones). -/
def toRat : Float64 → ℚ
  | .finite neg mant exp => (if neg then -1 else 1) * (mant : ℚ) * (2 : ℚ) ^ exp
  | _ => 0

end Float64

/-- The integer nearest to `mant * 2^exp * 10^6`, ties going to the even neighbour: the digits
that `strconv.FormatFloat(_, 'f', 6, 64)` prints (it converts the binary value to its exact
decimal expansion and rounds that at the sixth fractional digit, half to even). -/
def scaledRound (mant : Nat) (exp : Int) : Nat :=
  match exp with
  | Int.ofNat e => mant * 2 ^ e * 10 ^ 6
  | Int.negSucc e =>
    let den := 2 ^ (e + 1)
    let num := mant * 10 ^ 6
    let q := num / den
    let r := num % den
    if den < 2 * r ∨ (2 * r = den ∧ q % 2 = 1) then q + 1 else q

/-- The six fractional digits of a scaled value, zero padded. -/
def fracDigits (q : Nat) : List Char :=
  [Nat.digitChar (q / 100000 % 10), Nat.digitChar (q / 10000 % 10), Nat.digitChar (q / 1000 % 10),
   Nat.digitChar (q / 100 % 10), Nat.digitChar (q / 10 % 10), Nat.digitChar (q % 10)]

/-- Go `strconv.FormatFloat(x, 'f', 6, 64)`: the words "NaN", "+Inf", "-Inf" for the values
that are not finite, else the sign, the integer digits, a point and six fractional digits. -/
def FormatFloat : Float64 → String
  | .nan => "NaN"
  | .inf false => "+Inf"
  | .inf true => "-Inf"
  | .finite neg mant exp =>
    let q := scaledRound mant exp
    (if neg then "-" else "") ++ Nat.repr (q / 10 ^ 6) ++ "." ++ String.mk (fracDigits q)

/-- The number a string of decimal digits denotes. -/
def decimalValue (digits : List Char) : Nat :=
  digits.foldl (fun a c => 10 * a + (c.toNat - 48)) 0

/-- Go `strconv.FormatBool`. -/
def FormatBool : Bool → String
  | true => "true"
  | false => "false"

/-! ## `structpb.Value` -/

/-- A `*structpb.Value`.  `structValue fields` carries the entries of the `Fields` map in the
order the `range` loop of this execution visits them (a nil `*Struct` or nil map behaves as
the empty list); `listValue values` carries the `Values` slice. -/
inductive Value where
  | nilPtr
  | unset
  | nullValue
  | numberValue (x : Float64)
  | stringValue (s : String)
  | boolValue (b : Bool)
  | structValue (fields : List (String × Value))
  | listValue (values : List Value)

namespace Value

/-- Generated getter `(*Value).GetNumberValue`: the number, or 0 for every other kind and for nil. -/
def GetNumberValue : Value → Float64
  | .numberValue x => x
  | _ => Float64.zero

/-- Generated getter `(*Value).GetStringValue`: the string, or "" for every other kind and for nil. -/
def GetStringValue : Value → String
  | .stringValue s => s
  | _ => ""

end Value

/-- One iteration of the `range fields` loop of `extractDialogflowEntities`: the three `if`
statements, each `fmt.Sprintf("%s%s\n", extractedEntity, ...)`. -/
def structStep (extractedEntity : String) (key : String) (value : Value) : String :=
  let e1 := if key = "amount" then
      extractedEntity ++ FormatFloat value.GetNumberValue ++ "\n" else extractedEntity
  let e2 := if key = "unit" then e1 ++ value.GetStringValue ++ "\n" else e1
  let e3 := if key = "date_time" then e2 ++ value.GetStringValue ++ "\n" else e2
  e3

/-- The `range fields` loop, started from the accumulator `extractedEntity`. -/
def structLoop (extractedEntity : String) : List (String × Value) → String
  | [] => extractedEntity
  | (key, value) :: rest => structLoop (structStep extractedEntity key value) rest

mutual
/-- Source function `extractDialogflowEntities`. -/
def extractDialogflowEntities : Value → String
  | .stringValue s => s
  | .numberValue x => FormatFloat x
  | .boolValue b => FormatBool b
  | .structValue fields => structLoop "" fields
  | .listValue values => listLoop "" values
  | _ => ""
/-- The `range list.GetValues()` loop: every element overwrites `extractedEntity`. -/
def listLoop (extractedEntity : String) : List Value → String
  | [] => extractedEntity
  | val :: rest => listLoop (extractDialogflowEntities val) rest
end

/-! ## The object loop, described field by field -/

/-- The field names the loop body compares `key` with, in the order of the three `if`s. -/
def recognizedKeys : List String := ["amount", "unit", "date_time"]

/-- Whether an entry of the `Fields` map has one of the three names. -/
def recognizedEntry (kv : String × Value) : Bool := decide (kv.1 ∈ recognizedKeys)

/-- What the loop body formats for a field with one of the three names: `amount` goes through
`GetNumberValue` and `FormatFloat`, `unit` and `date_time` through `GetStringValue`. -/
def fieldText (key : String) (value : Value) : String :=
  if key = "amount" then FormatFloat value.GetNumberValue else value.GetStringValue

/-- The text one visited field with one of the three names adds: its text and a newline. -/
def segment (kv : String × Value) : String := fieldText kv.1 kv.2 ++ "\n"

/-- Concatenation of a list of strings, left to right. -/
def joinAll : List String → String
  | [] => ""
  | s :: rest => s ++ joinAll rest

/-- The names among `amount`, `unit`, `date_time` that occur as a key of `fields`. -/
def presentKeys (fields : List (String × Value)) : List String :=
  recognizedKeys.filter (fun k => fields.any (fun kv => decide (kv.1 = k)))

/-- The object flattening as the specification words it: the three names are looked up in the
fixed sequence amount, unit, date_time, and each one present adds its text and a newline. -/
def fixedOrderFlatten (fields : List (String × Value)) : String :=
  let part (key : String) : String :=
    match fields.lookup key with
    | some value => fieldText key value ++ "\n"
    | none => ""
  part "amount" ++ part "unit" ++ part "date_time"

/-! ## Call depth -/

/-- The `range list.GetValues()` loop with the recursive call given as `call`, which may fail to
return. -/
def loopFuel (call : Value → Option String) (extractedEntity : String) :
    List Value → Option String
  | [] => some extractedEntity
  | val :: rest =>
    match call val with
    | none => none
    | some s => loopFuel call s rest

/-- The function `extractDialogflowEntities` run with a bound on the depth of its call stack:
`none` when the bound is used up before the call returns. -/
def extractFuel : Nat → Value → Option String
  | 0, _ => none
  | _ + 1, .stringValue s => some s
  | _ + 1, .numberValue x => some (FormatFloat x)
  | _ + 1, .boolValue b => some (FormatBool b)
  | _ + 1, .structValue fields => some (structLoop "" fields)
  | n + 1, .listValue values => loopFuel (extractFuel n) "" values
  | _ + 1, _ => some ""

mutual
/-- Nesting depth of a value: objects and lists count one level each. -/
def Value.depth : Value → Nat
  | .structValue fields => Value.depthFields fields + 1
  | .listValue values => Value.depthList values + 1
  | _ => 0
/-- Largest depth among the elements of a list. -/
def Value.depthList : List Value → Nat
  | [] => 0
  | v :: vs => max (Value.depth v) (Value.depthList vs)
/-- Largest depth among the field values of an object. -/
def Value.depthFields : List (String × Value) → Nat
  | [] => 0
  | (_, v) :: rest => max (Value.depth v) (Value.depthFields rest)
end

/-! ## Iteration order of maps -/

/-- Two descriptions of one protobuf value: they differ at most in the order in which the
entries of `Fields` maps are visited, at any depth. -/
inductive SameValue : Value → Value → Prop
  | refl (v : Value) : SameValue v v
  | trans {u v w : Value} : SameValue u v → SameValue v w → SameValue u w
  | fields {fs gs : List (String × Value)} :
      fs.Perm gs → SameValue (.structValue fs) (.structValue gs)
  | field {k : String} {v w : Value} {fs : List (String × Value)} :
      SameValue v w → SameValue (.structValue ((k, v) :: fs)) (.structValue ((k, w) :: fs))
  | head {v w : Value} {vs : List Value} :
      SameValue v w → SameValue (.listValue (v :: vs)) (.listValue (w :: vs))
  | tail {v : Value} {vs ws : List Value} :
      SameValue (.listValue vs) (.listValue ws) →
      SameValue (.listValue (v :: vs)) (.listValue (v :: ws))

/-- Whether the strings commute pairwise under concatenation. -/
def commuting (segs : List String) : Bool :=
  segs.all (fun s => segs.all (fun t => decide (s ++ t = t ++ s)))

mutual
/-- Whether the segments of the object that decides the result commute under concatenation;
that object is the value itself, or the last element of a list, followed through nested lists
(true when the deciding value is not an object, and for the empty list). -/
def orderFree : Value → Bool
  | .structValue fields => commuting ((fields.filter recognizedEntry).map segment)
  | .listValue values => orderFreeFrom true values
  | _ => true
/-- The value of `orderFree` at the last element of the list, `b` when the list is empty. -/
def orderFreeFrom (b : Bool) : List Value → Bool
  | [] => b
  | v :: rest => orderFreeFrom (orderFree v) rest
end

/-- The value `orderFreeFrom b` on the elements of `v` (`b` when `v` is not a list). -/
def freeOn (b : Bool) : Value → Bool
  | .listValue vs => orderFreeFrom b vs
  | _ => b

/-- The text left in `extractedEntity` when the list loop, entered with `a`, runs over the
elements of `v` (no iteration when `v` is not a list). -/
def loopOn (a : String) : Value → String
  | .listValue vs => listLoop a vs
  | _ => a

/-! ## `processNLP` from the engine response on -/

/-- Go `float32`, kept as the `float64` it was converted from. -/
structure Float32 where
  ofFloat64 : Float64
  deriving DecidableEq, Repr

/-- Message `dialogflowpb.Intent` (the field the source reads). -/
structure Intent where
  DisplayName : String
  deriving DecidableEq, Repr

/-- Message `dialogflowpb.QueryResult` (the fields the source reads).  `Parameters` is a
`*structpb.Struct`: `none` is the nil pointer. -/
structure QueryResult where
  FulfillmentText : String
  Intent : Option Intent
  IntentDetectionConfidence : Float64
  Parameters : Option (List (String × Value))

/-- Message `dialogflowpb.DetectIntentResponse`; `QueryResult` is a pointer, `none` when nil. -/
structure DetectIntentResponse where
  QueryResult : Option QueryResult

/-- Go struct `NLPResponse`.  `Entities` is a `map[string]string`: `none` is the nil map. -/
structure NLPResponse where
  Intent : String
  Text : String
  Confidence : Float32
  Entities : Option (List (String × String))
  deriving DecidableEq, Repr

/-- Generated getter `(*Struct).GetFields`, nil safe. -/
def GetFields : Option (List (String × Value)) → List (String × Value)
  | some fields => fields
  | none => []

/-- Go map assignment `m[k] = v`: replaces the entry of `k` if there is one, adds it otherwise. -/
def mapAssign (m : List (String × String)) (k v : String) : List (String × String) :=
  if m.any (fun e => decide (e.1 = k)) then
    m.map (fun e => if e.1 = k then (k, v) else e)
  else m ++ [(k, v)]

/-- The `range params` loop of `processNLP`. -/
def paramsLoop (entities : List (String × String)) :
    List (String × Value) → List (String × String)
  | [] => entities
  | (paramName, p) :: rest =>
    let extractedValue := extractDialogflowEntities p
    paramsLoop (mapAssign entities paramName extractedValue) rest

/-- Source function `processNLP` from the line `queryResult := response.GetQueryResult()` on
(the engine call before it is external).  `none` is the nil pointer dereference panic of
`queryResult.Intent` when the response has no query result. -/
def processNLP (response : DetectIntentResponse) : Option NLPResponse :=
  match response.QueryResult with
  | none => none
  | some queryResult =>
    let r : NLPResponse := ⟨"", "", ⟨Float64.zero⟩, none⟩
    let r := match queryResult.Intent with
      | some intent =>
        { r with Text := queryResult.FulfillmentText, Intent := intent.DisplayName,
                 Confidence := ⟨queryResult.IntentDetectionConfidence⟩ }
      | none => r
    let params := GetFields queryResult.Parameters
    let entities := if params.length > 0 then paramsLoop [] params else []
    some { r with Entities := some entities }

/-- A query result without intent and with two parameters, one of them an object. -/
def sampleQueryResult : QueryResult :=
  ⟨"What size?", none, .finite false 3 (-2),
   some [("drink", .stringValue "Coffee"),
         ("size", .structValue [("amount", .numberValue (.finite false 5 (-1))),
                                ("unit", .stringValue "kg")])]⟩

/-! ## Lemmas on the number format -/

theorem digitChar_facts :
    ∀ d, d < 10 → (Nat.digitChar d).isDigit = true ∧ (Nat.digitChar d).toNat - 48 = d := by
  decide

theorem decimalValue_cons_aux (l : List Char) :
    ∀ a : Nat, l.foldl (fun a c => 10 * a + (c.toNat - 48)) a =
      a * 10 ^ l.length + decimalValue l := by
  induction l with
  | nil => intro a; simp [decimalValue]
  | cons c cs ih =>
    intro a
    simp only [List.foldl_cons, decimalValue, List.length_cons]
    rw [ih (10 * a + (c.toNat - 48)), ih (10 * 0 + (c.toNat - 48))]
    ring

theorem decimalValue_cons (c : Char) (l : List Char) :
    decimalValue (c :: l) = (c.toNat - 48) * 10 ^ l.length + decimalValue l := by
  simp only [decimalValue, List.foldl_cons]
  rw [decimalValue_cons_aux l (10 * 0 + (c.toNat - 48))]
  simp [decimalValue]

theorem toDigitsCore_spec (fuel : Nat) :
    ∀ (n : Nat) (ds : List Char), n < fuel →
      (∀ c ∈ ds, c.isDigit = true) →
      (∀ c ∈ Nat.toDigitsCore 10 fuel n ds, c.isDigit = true) ∧
      Nat.toDigitsCore 10 fuel n ds ≠ [] ∧
      decimalValue (Nat.toDigitsCore 10 fuel n ds) = n * 10 ^ ds.length + decimalValue ds ∧
      ds.length < (Nat.toDigitsCore 10 fuel n ds).length := by
  induction fuel with
  | zero => intro n ds h; omega
  | succ fuel ih =>
    intro n ds hn hds
    have hd := digitChar_facts (n % 10) (Nat.mod_lt _ (by decide))
    have hcons : ∀ c ∈ Nat.digitChar (n % 10) :: ds, c.isDigit = true := by
      intro c hc
      rcases List.mem_cons.1 hc with rfl | h
      · exact hd.1
      · exact hds c h
    simp only [Nat.toDigitsCore]
    split
    · next h0 =>
      refine ⟨hcons, by simp, ?_, by simp⟩
      rw [decimalValue_cons, hd.2]
      have : n % 10 = n := by omega
      rw [this]
    · next h0 =>
      have hlt : n / 10 < fuel := by omega
      obtain ⟨h1, h2, h3, h4⟩ := ih (n / 10) (Nat.digitChar (n % 10) :: ds) hlt hcons
      refine ⟨h1, h2, ?_, by simp only [List.length_cons] at h4; omega⟩
      rw [h3, decimalValue_cons, hd.2, List.length_cons, pow_succ]
      have := Nat.div_add_mod n 10
      calc n / 10 * (10 ^ ds.length * 10) + (n % 10 * 10 ^ ds.length + decimalValue ds)
          = (10 * (n / 10) + n % 10) * 10 ^ ds.length + decimalValue ds := by ring
        _ = n * 10 ^ ds.length + decimalValue ds := by rw [this]

theorem repr_spec (n : Nat) :
    (Nat.repr n).data ≠ [] ∧ (∀ c ∈ (Nat.repr n).data, c.isDigit = true) ∧
    decimalValue (Nat.repr n).data = n := by
  obtain ⟨h1, h2, h3, _⟩ := toDigitsCore_spec (n + 1) n [] (by omega) (by simp)
  refine ⟨h2, h1, ?_⟩
  simpa [decimalValue] using h3

theorem fracDigits_spec (q : Nat) :
    (fracDigits q).length = 6 ∧ (∀ c ∈ fracDigits q, c.isDigit = true) ∧
    decimalValue (fracDigits q) = q % 10 ^ 6 := by
  have h5 := digitChar_facts (q / 100000 % 10) (Nat.mod_lt _ (by decide))
  have h4 := digitChar_facts (q / 10000 % 10) (Nat.mod_lt _ (by decide))
  have h3 := digitChar_facts (q / 1000 % 10) (Nat.mod_lt _ (by decide))
  have h2 := digitChar_facts (q / 100 % 10) (Nat.mod_lt _ (by decide))
  have h1 := digitChar_facts (q / 10 % 10) (Nat.mod_lt _ (by decide))
  have h0 := digitChar_facts (q % 10) (Nat.mod_lt _ (by decide))
  refine ⟨rfl, ?_, ?_⟩
  · intro c hc
    simp only [fracDigits, List.mem_cons, List.mem_singleton, List.not_mem_nil, or_false] at hc
    rcases hc with rfl | rfl | rfl | rfl | rfl | rfl
    exacts [h5.1, h4.1, h3.1, h2.1, h1.1, h0.1]
  · simp only [fracDigits, decimalValue, List.foldl_cons, List.foldl_nil, h5.2, h4.2, h3.2,
      h2.2, h1.2, h0.2]
    omega

theorem scaledRound_near (mant : Nat) (exp : Int) :
    |(mant : ℚ) * (2 : ℚ) ^ exp * 10 ^ 6 - (scaledRound mant exp : ℚ)| ≤ 1 / 2 := by
  cases exp with
  | ofNat e =>
    simp only [scaledRound, Int.ofNat_eq_coe, zpow_natCast]
    push_cast
    have h0 : (mant : ℚ) * 2 ^ e * 10 ^ 6 - (mant : ℚ) * 2 ^ e * 1000000 = 0 := by ring
    rw [h0, abs_zero]
    norm_num
  | negSucc e =>
    have hden : 0 < 2 ^ (e + 1) := Nat.pow_pos (by decide)
    have hdiv := Nat.div_add_mod (mant * 10 ^ 6) (2 ^ (e + 1))
    have hlt := Nat.mod_lt (mant * 10 ^ 6) hden
    simp only [scaledRound, zpow_negSucc]
    generalize (mant * 10 ^ 6) / 2 ^ (e + 1) = q0 at hdiv ⊢
    generalize (mant * 10 ^ 6) % 2 ^ (e + 1) = r at hdiv hlt ⊢
    generalize hD : 2 ^ (e + 1) = den at hdiv hlt hden ⊢
    have hDq : (0 : ℚ) < (den : ℚ) := by exact_mod_cast hden
    have hN : (mant : ℚ) * 10 ^ 6 = den * q0 + r := by exact_mod_cast hdiv.symm
    have hDc : ((2 : ℚ) ^ (e + 1)) = (den : ℚ) := by exact_mod_cast hD
    have hval : (mant : ℚ) * ((2 : ℚ) ^ (e + 1))⁻¹ * 10 ^ 6 = q0 + r / den := by
      rw [hDc]
      field_simp
      linarith
    rw [hval]
    have hr0 : (0 : ℚ) ≤ (r : ℚ) / den := by positivity
    split
    · next hup =>
      have hge : den ≤ 2 * r := by omega
      have hgeq : (den : ℚ) ≤ 2 * r := by exact_mod_cast hge
      have hltq : (r : ℚ) < den := by exact_mod_cast hlt
      have h1 : (1 : ℚ) / 2 ≤ (r : ℚ) / den := by
        rw [le_div_iff₀ hDq]; linarith
      have h2 : (r : ℚ) / den < 1 := by
        rw [div_lt_iff₀ hDq]; linarith
      push_cast
      rw [abs_le]
      constructor <;> linarith
    · next hdown =>
      have hle : 2 * r ≤ den := by omega
      have hleq : 2 * (r : ℚ) ≤ den := by exact_mod_cast hle
      have h1 : (r : ℚ) / den ≤ 1 / 2 := by
        rw [div_le_iff₀ hDq]; linarith
      rw [abs_le]
      constructor <;> linarith

theorem abs_toRat_finite (neg : Bool) (mant : Nat) (exp : Int) :
    |(Float64.finite neg mant exp).toRat| = (mant : ℚ) * (2 : ℚ) ^ exp := by
  have h : (0 : ℚ) ≤ (mant : ℚ) * (2 : ℚ) ^ exp := by positivity
  cases neg
  · simp [Float64.toRat, abs_of_nonneg h]
  · simp only [Float64.toRat, if_true]
    rw [show (-1 : ℚ) * (mant : ℚ) * (2 : ℚ) ^ exp = -((mant : ℚ) * (2 : ℚ) ^ exp) by ring,
      abs_neg, abs_of_nonneg h]

/-! ## Lemmas on the two loops -/

theorem structStep_recognized (acc key : String) (value : Value)
    (h : recognizedEntry (key, value) = true) :
    structStep acc key value = acc ++ segment (key, value) := by
  simp only [recognizedEntry, recognizedKeys, decide_eq_true_eq, List.mem_cons,
    List.mem_singleton, List.not_mem_nil, or_false] at h
  rcases h with h | h | h <;> subst h <;>
    simp [structStep, segment, fieldText, String.append_assoc]

theorem structStep_other (acc key : String) (value : Value)
    (h : recognizedEntry (key, value) = false) :
    structStep acc key value = acc := by
  simp only [recognizedEntry, recognizedKeys, decide_eq_false_iff_not, List.mem_cons,
    List.mem_singleton, List.not_mem_nil, or_false, not_or] at h
  simp [structStep, h.1, h.2.1, h.2.2]

theorem structLoop_eq (fields : List (String × Value)) :
    ∀ acc : String,
      structLoop acc fields = acc ++ joinAll ((fields.filter recognizedEntry).map segment) := by
  induction fields with
  | nil => intro acc; simp [structLoop, joinAll]
  | cons kv rest ih =>
    intro acc
    obtain ⟨key, value⟩ := kv
    cases h : recognizedEntry (key, value)
    · simp [structLoop, structStep_other acc key value h, ih, h]
    · simp [structLoop, structStep_recognized acc key value h, ih, h, joinAll,
        String.append_assoc]

theorem listLoop_append (xs : List Value) (x : Value) :
    ∀ acc : String, listLoop acc (xs ++ [x]) = extractDialogflowEntities x := by
  induction xs with
  | nil => intro acc; simp [listLoop]
  | cons y ys ih => intro acc; simp [listLoop, ih]

theorem lookup_filter_recognized (key : String) (hk : key ∈ recognizedKeys)
    (fields : List (String × Value)) :
    (fields.filter recognizedEntry).lookup key = fields.lookup key := by
  induction fields with
  | nil => rfl
  | cons kv rest ih =>
    obtain ⟨k, v⟩ := kv
    by_cases hkk : key = k
    · subst hkk
      have : recognizedEntry (key, v) = true := by simp [recognizedEntry, hk]
      simp [List.filter_cons, this, List.lookup]
    · have hne : (key == k) = false := by simpa using hkk
      cases h : recognizedEntry (k, v)
      · simp [List.filter_cons, h, List.lookup, hne, ih]
      · simp [List.filter_cons, h, List.lookup, hne, ih]

theorem joinAll_fixed_order (fl : List (String × Value))
    (h : (fl.map Prod.fst).Sublist recognizedKeys) :
    joinAll (fl.map segment) =
      (match fl.lookup "amount" with
        | some value => fieldText "amount" value ++ "\n"
        | none => "") ++
      (match fl.lookup "unit" with
        | some value => fieldText "unit" value ++ "\n"
        | none => "") ++
      (match fl.lookup "date_time" with
        | some value => fieldText "date_time" value ++ "\n"
        | none => "") := by
  have hm := List.mem_sublists.2 h
  simp [recognizedKeys, List.sublists, List.sublistsAux, List.map_eq_cons_iff] at hm
  rcases hm with rfl | ⟨x, rfl⟩ | ⟨x, rfl⟩ | ⟨a, b, l, rfl, rfl, x, rfl⟩ | ⟨x, rfl⟩ |
    ⟨a, b, l, rfl, rfl, x, rfl⟩ | ⟨a, b, l, rfl, rfl, x, rfl⟩ |
    ⟨a, b, l, rfl, rfl, a2, b2, l2, rfl, rfl, x, rfl⟩ <;>
  simp [joinAll, segment, List.lookup, String.append_assoc]

theorem joinAll_segments_last (l : List (String × Value)) (hl : l ≠ []) :
    (joinAll (l.map segment)).data.getLast? = some '\n' := by
  induction l with
  | nil => exact absurd rfl hl
  | cons kv rest ih =>
    by_cases hr : rest = []
    · subst hr
      simp [joinAll, segment, String.data_append]
    · have := ih hr
      simp [joinAll, String.data_append, List.getLast?_append, this] at this ⊢

theorem joinAll_segments_empty_iff (l : List (String × Value)) :
    joinAll (l.map segment) = "" ↔ l = [] := by
  constructor
  · intro h
    by_contra hl
    have := joinAll_segments_last l hl
    rw [h] at this
    simp at this
  · rintro rfl
    rfl

theorem visited_keys_perm (fields order : List (String × Value))
    (hkeys : (fields.map Prod.fst).Nodup) (hperm : order.Perm fields) :
    ((order.filter recognizedEntry).map Prod.fst).Perm (presentKeys fields) := by
  have hnd : (order.map Prod.fst).Nodup := (hperm.map Prod.fst).nodup_iff.2 hkeys
  have h1 : ((order.filter recognizedEntry).map Prod.fst).Nodup :=
    hnd.sublist ((List.filter_sublist _).map Prod.fst)
  have h2 : (presentKeys fields).Nodup := by
    unfold presentKeys
    exact List.Nodup.filter _ (by decide)
  rw [List.perm_ext_iff_of_nodup h1 h2]
  intro k
  simp only [presentKeys, List.mem_map, List.mem_filter, List.any_eq_true, decide_eq_true_eq,
    recognizedEntry, Prod.exists, exists_and_right, exists_eq_right]
  constructor
  · rintro ⟨⟨v, hv⟩, hk⟩
    exact ⟨hk, v, hperm.subset hv⟩
  · rintro ⟨hk, v, hv⟩
    exact ⟨⟨v, hperm.symm.subset hv⟩, hk⟩

/-! ## Lemmas on call depth -/

theorem depth_le_depthList (vs : List Value) :
    ∀ v ∈ vs, Value.depth v ≤ Value.depthList vs := by
  induction vs with
  | nil => intro v hv; cases hv
  | cons x xs ih =>
    intro v hv
    rcases List.mem_cons.1 hv with rfl | h
    · simp [Value.depthList]
    · have := ih v h
      simp only [Value.depthList]
      omega

theorem loopFuel_eq (call : Value → Option String) (vs : List Value)
    (h : ∀ v ∈ vs, call v = some (extractDialogflowEntities v)) :
    ∀ acc : String, loopFuel call acc vs = some (listLoop acc vs) := by
  induction vs with
  | nil => intro acc; rfl
  | cons x xs ih =>
    intro acc
    have hx := h x (List.mem_cons_self _ _)
    have hxs := ih (fun v hv => h v (List.mem_cons_of_mem _ hv))
    simp [loopFuel, listLoop, hx, hxs]

theorem extractFuel_eq (n : Nat) :
    ∀ v : Value, Value.depth v < n → extractFuel n v = some (extractDialogflowEntities v) := by
  induction n with
  | zero => intro v hv; omega
  | succ n ih =>
    intro v hv
    cases v with
    | listValue values =>
      simp only [extractFuel, extractDialogflowEntities]
      apply loopFuel_eq
      intro x hx
      apply ih
      have := depth_le_depthList values x hx
      simp only [Value.depth] at hv
      omega
    | _ => simp [extractFuel, extractDialogflowEntities]

/-! ## Lemmas on the iteration order -/

theorem append_right_cancel (a b c : String) (h : a ++ c = b ++ c) : a = b := by
  have hd := congrArg String.data h
  simp only [String.data_append] at hd
  exact String.ext (List.append_cancel_right hd)

theorem commuting_iff (segs : List String) :
    commuting segs = true ↔ ∀ s ∈ segs, ∀ t ∈ segs, s ++ t = t ++ s := by
  simp [commuting, List.all_eq_true]

theorem commuting_perm {l m : List String} (hp : l.Perm m) : commuting l = commuting m := by
  rw [Bool.eq_iff_iff, commuting_iff, commuting_iff]
  constructor
  · intro h s hs t ht
    exact h s (hp.symm.subset hs) t (hp.symm.subset ht)
  · intro h s hs t ht
    exact h s (hp.subset hs) t (hp.subset ht)

theorem joinAll_perm {l m : List String} (hp : l.Perm m) :
    (∀ s ∈ l, ∀ t ∈ l, s ++ t = t ++ s) → joinAll l = joinAll m := by
  induction hp with
  | nil => intro _; rfl
  | cons x _ ih =>
    intro hc
    simp only [joinAll]
    rw [ih (fun s hs t ht => hc s (List.mem_cons_of_mem _ hs) t (List.mem_cons_of_mem _ ht))]
  | swap x y l =>
    intro hc
    have hxy := hc y (List.mem_cons_self _ _) x (List.mem_cons_of_mem _ (List.mem_cons_self _ _))
    simp only [joinAll]
    rw [← String.append_assoc, ← String.append_assoc, hxy]
  | trans h1 _ ih1 ih2 =>
    intro hc
    rw [ih1 hc]
    exact ih2 (fun s hs t ht => hc s (h1.symm.subset hs) t (h1.symm.subset ht))

theorem segment_congr (k : String) {v w : Value}
    (hn : v.GetNumberValue = w.GetNumberValue) (hs : v.GetStringValue = w.GetStringValue) :
    segment (k, v) = segment (k, w) := by
  simp [segment, fieldText, hn, hs]

theorem listLoop_nonempty (x : Value) (xs : List Value) (a b : String) :
    listLoop a (x :: xs) = listLoop b (x :: xs) := by
  simp [listLoop]

theorem sameValue_invariants {v w : Value} (h : SameValue v w) :
    v.GetNumberValue = w.GetNumberValue ∧
    v.GetStringValue = w.GetStringValue ∧
    orderFree v = orderFree w ∧
    (∀ b : Bool, freeOn b v = freeOn b w) ∧
    (orderFree v = true → extractDialogflowEntities v = extractDialogflowEntities w) ∧
    (∀ (a : String) (b : Bool), freeOn b v = true → loopOn a v = loopOn a w) := by
  induction h with
  | refl v => exact ⟨rfl, rfl, rfl, fun _ => rfl, fun _ => rfl, fun _ _ _ => rfl⟩
  | trans _ _ ih1 ih2 =>
    obtain ⟨n1, s1, o1, f1, e1, l1⟩ := ih1
    obtain ⟨n2, s2, o2, f2, e2, l2⟩ := ih2
    refine ⟨n1.trans n2, s1.trans s2, o1.trans o2, fun b => (f1 b).trans (f2 b), ?_, ?_⟩
    · intro hf
      exact (e1 hf).trans (e2 (o1 ▸ hf))
    · intro a b hf
      exact (l1 a b hf).trans (l2 a b (f1 b ▸ hf))
  | @fields fs gs hp =>
    have hsp := (hp.filter recognizedEntry).map segment
    refine ⟨rfl, rfl, ?_, fun _ => rfl, ?_, fun _ _ _ => rfl⟩
    · simp only [orderFree]
      exact commuting_perm hsp
    · intro hf
      simp only [orderFree] at hf
      simp only [extractDialogflowEntities, structLoop_eq, String.empty_append]
      exact joinAll_perm hsp ((commuting_iff _).1 hf)
  | @field k v w fs _ ih =>
    have hseg := segment_congr k ih.1 ih.2.1
    have hfl : ((((k, v) :: fs).filter recognizedEntry).map segment) =
        ((((k, w) :: fs).filter recognizedEntry).map segment) := by
      by_cases hk : k ∈ recognizedKeys <;>
        simp [List.filter_cons, recognizedEntry, hk, hseg]
    refine ⟨rfl, rfl, ?_, fun _ => rfl, ?_, fun _ _ _ => rfl⟩
    · simp only [orderFree, hfl]
    · intro _
      simp only [extractDialogflowEntities, structLoop_eq, String.empty_append, hfl]
  | @head v w vs _ ih =>
    obtain ⟨_, _, o, _, e, _⟩ := ih
    have hloop : ∀ a : String, ∀ b : Bool, freeOn b (.listValue (v :: vs)) = true →
        loopOn a (.listValue (v :: vs)) = loopOn a (.listValue (w :: vs)) := by
      intro a b hf
      simp only [freeOn, orderFreeFrom, loopOn, listLoop] at hf ⊢
      cases vs with
      | nil =>
        simp only [orderFreeFrom] at hf
        simp only [listLoop]
        exact e hf
      | cons x xs => exact listLoop_nonempty x xs _ _
    refine ⟨rfl, rfl, ?_, ?_, ?_, hloop⟩
    · simp only [orderFree, orderFreeFrom, o]
    · intro b
      simp only [freeOn, orderFreeFrom, o]
    · intro hf
      exact hloop "" true hf
  | @tail v vs ws _ ih =>
    obtain ⟨_, _, _, f, _, l⟩ := ih
    have hfree : ∀ b : Bool, freeOn b (.listValue (v :: vs)) = freeOn b (.listValue (v :: ws)) := by
      intro b
      simpa only [freeOn, orderFreeFrom] using f (orderFree v)
    have hloop : ∀ a : String, ∀ b : Bool, freeOn b (.listValue (v :: vs)) = true →
        loopOn a (.listValue (v :: vs)) = loopOn a (.listValue (v :: ws)) := by
      intro a b hf
      simpa only [loopOn, listLoop] using
        l (extractDialogflowEntities v) (orderFree v) (by simpa only [freeOn, orderFreeFrom] using hf)
    refine ⟨rfl, rfl, hfree true, hfree, ?_, hloop⟩
    intro hf
    exact hloop "" true hf

theorem orderFreeFrom_append (xs : List Value) (x : Value) :
    ∀ b : Bool, orderFreeFrom b (xs ++ [x]) = orderFree x := by
  induction xs with
  | nil => intro b; simp [orderFreeFrom]
  | cons y ys ih => intro b; simp [orderFreeFrom, ih]

theorem sameValue_last (xs : List Value) {x w : Value} (h : SameValue x w) :
    SameValue (.listValue (xs ++ [x])) (.listValue (xs ++ [w])) := by
  induction xs with
  | nil => exact SameValue.head h
  | cons y ys ih => exact SameValue.tail ih

theorem struct_order_sensitive (fs : List (String × Value))
    (hf : orderFree (.structValue fs) = false) :
    ∃ gs : List (String × Value), fs.Perm gs ∧
      extractDialogflowEntities (.structValue fs) ≠
        extractDialogflowEntities (.structValue gs) := by
  have hnot : ¬ ∀ s ∈ (fs.filter recognizedEntry).map segment,
      ∀ t ∈ (fs.filter recognizedEntry).map segment, s ++ t = t ++ s := by
    intro hall
    have := (commuting_iff _).2 hall
    simp only [orderFree] at hf
    rw [hf] at this
    cases this
  push_neg at hnot
  obtain ⟨s, hs, t, ht, hst⟩ := hnot
  obtain ⟨a, ha, rfl⟩ := List.mem_map.1 hs
  obtain ⟨b, hb, rfl⟩ := List.mem_map.1 ht
  obtain ⟨hafs, har⟩ := List.mem_filter.1 ha
  obtain ⟨hbfs, hbr⟩ := List.mem_filter.1 hb
  have hab : b ≠ a := by
    rintro rfl
    exact hst rfl
  obtain ⟨p, q, rfl⟩ := List.append_of_mem hafs
  have hb2 : b ∈ p ++ q := by
    rcases List.mem_append.1 hbfs with h | h
    · exact List.mem_append_left _ h
    · rcases List.mem_cons.1 h with h | h
      · exact absurd h hab
      · exact List.mem_append_right _ h
  obtain ⟨p2, q2, hpq⟩ := List.append_of_mem hb2
  have hp1 : (p ++ a :: q).Perm (a :: b :: (p2 ++ q2)) := by
    refine List.perm_middle.trans (List.Perm.cons _ ?_)
    rw [hpq]
    exact List.perm_middle
  have hp2 : (p ++ a :: q).Perm (b :: a :: (p2 ++ q2)) := hp1.trans (List.Perm.swap _ _ _)
  have e1 : extractDialogflowEntities (.structValue (a :: b :: (p2 ++ q2))) =
      (segment a ++ segment b) ++
        joinAll (((p2 ++ q2).filter recognizedEntry).map segment) := by
    simp [extractDialogflowEntities, structLoop_eq, List.filter_cons, har, hbr, joinAll,
      String.append_assoc]
  have e2 : extractDialogflowEntities (.structValue (b :: a :: (p2 ++ q2))) =
      (segment b ++ segment a) ++
        joinAll (((p2 ++ q2).filter recognizedEntry).map segment) := by
    simp [extractDialogflowEntities, structLoop_eq, List.filter_cons, har, hbr, joinAll,
      String.append_assoc]
  by_cases h1 : extractDialogflowEntities (.structValue (p ++ a :: q)) =
      extractDialogflowEntities (.structValue (a :: b :: (p2 ++ q2)))
  · refine ⟨_, hp2, ?_⟩
    rw [h1, e1, e2]
    intro heq
    exact hst (append_right_cancel _ _ _ heq)
  · exact ⟨_, hp1, h1⟩

theorem depth_last_lt (xs : List Value) (x : Value) :
    Value.depth x < Value.depth (.listValue (xs ++ [x])) := by
  have := depth_le_depthList (xs ++ [x]) x (by simp)
  simp only [Value.depth]
  omega

theorem order_sensitive (n : Nat) :
    ∀ v : Value, Value.depth v ≤ n → orderFree v = false →
      ∃ w : Value, SameValue v w ∧
        extractDialogflowEntities v ≠ extractDialogflowEntities w := by
  induction n with
  | zero =>
    intro v hd hf
    cases v with
    | structValue fs => simp [Value.depth] at hd
    | listValue vs => simp [Value.depth] at hd
    | _ => simp [orderFree] at hf
  | succ n ih =>
    intro v hd hf
    cases v with
    | structValue fs =>
      obtain ⟨gs, hp, hne⟩ := struct_order_sensitive fs hf
      exact ⟨.structValue gs, SameValue.fields hp, hne⟩
    | listValue vs =>
      rcases List.eq_nil_or_concat vs with h | ⟨xs, x, h⟩
      · subst h
        simp [orderFree, orderFreeFrom] at hf
      · subst h
        have hx : orderFree x = false := by
          simpa [orderFree, orderFreeFrom_append] using hf
        have hdx : Value.depth x ≤ n := by
          have := depth_last_lt xs x
          simp only [List.concat_eq_append] at hd
          omega
        obtain ⟨w, hs, hne⟩ := ih x hdx hx
        refine ⟨.listValue (xs ++ [w]), by simpa using sameValue_last xs hs, ?_⟩
        simpa [extractDialogflowEntities, listLoop_append] using hne
    | _ => simp [orderFree] at hf

/-! ## Lemmas on the entity table -/

theorem mapAssign_fresh (m : List (String × String)) (k v : String)
    (h : k ∉ m.map Prod.fst) : mapAssign m k v = m ++ [(k, v)] := by
  have : (m.any fun e => decide (e.1 = k)) = false := by
    rw [Bool.eq_false_iff]
    intro hany
    obtain ⟨e, he, hk⟩ := List.any_eq_true.1 hany
    exact h (List.mem_map.2 ⟨e, he, by simpa using hk⟩)
  simp [mapAssign, this]

theorem paramsLoop_eq (params : List (String × Value)) :
    ∀ entities : List (String × String),
      (entities.map Prod.fst ++ params.map Prod.fst).Nodup →
      paramsLoop entities params =
        entities ++ params.map (fun kv => (kv.1, extractDialogflowEntities kv.2)) := by
  induction params with
  | nil => intro entities _; simp [paramsLoop]
  | cons kv rest ih =>
    intro entities hnd
    obtain ⟨name, p⟩ := kv
    have hfresh : name ∉ entities.map Prod.fst := by
      intro hmem
      have := (List.nodup_append.1 hnd).2.2
      exact this hmem (by simp)
    have hnd2 : ((entities ++ [(name, extractDialogflowEntities p)]).map Prod.fst ++
        rest.map Prod.fst).Nodup := by
      simpa [List.append_assoc] using hnd
    simp [paramsLoop, mapAssign_fresh _ _ _ hfresh, ih _ hnd2]

theorem lookup_flattened (params : List (String × Value)) (hnd : (params.map Prod.fst).Nodup)
    (name : String) (p : Value) (hmem : (name, p) ∈ params) :
    (params.map (fun kv => (kv.1, extractDialogflowEntities kv.2))).lookup name =
      some (extractDialogflowEntities p) := by
  induction params with
  | nil => cases hmem
  | cons kv rest ih =>
    obtain ⟨k, v⟩ := kv
    simp only [List.map_cons, List.nodup_cons] at hnd
    rcases List.mem_cons.1 hmem with h | h
    · cases h
      simp [List.lookup]
    · have hne : (name == k) = false := by
        rw [beq_eq_false_iff_ne]
        rintro rfl
        exact hnd.1 (List.mem_map.2 ⟨(name, p), h, rfl⟩)
      simp [List.lookup, hne, ih hnd.2 h]

/-! ## Theorems -/

/-- C2: flattening a list gives the empty string for the empty list and the flattening of the
last element otherwise; the elements before the last do not influence the result. -/
theorem list_flattens_to_last (xs : List Value) :
    extractDialogflowEntities (.listValue xs) =
      (match xs.getLast? with
       | none => ""
       | some last => extractDialogflowEntities last) ∧
    (∀ (ys : List Value) (last : Value),
      extractDialogflowEntities (.listValue (xs ++ [last])) =
        extractDialogflowEntities (.listValue (ys ++ [last]))) ∧
    extractDialogflowEntities
      (.listValue [.stringValue "a", .stringValue "b", .stringValue "c"]) = "c" := by
  refine ⟨?_, ?_, ?_⟩
  · rcases List.eq_nil_or_concat xs with h | ⟨ys, y, h⟩
    · subst h; simp [extractDialogflowEntities, listLoop]
    · subst h
      simp [extractDialogflowEntities, listLoop_append]
  · intro ys last
    simp [extractDialogflowEntities, listLoop_append]
  · simp [extractDialogflowEntities, listLoop]

/-- C8: on the scalar kinds other than numbers the flattener returns the string itself, the
literals "true" and "false" for booleans, and the empty string for null, for a value whose kind
is unset and for the nil pointer. -/
theorem scalar_kinds_table :
    (∀ s : String, extractDialogflowEntities (.stringValue s) = s) ∧
    extractDialogflowEntities (.stringValue "") = "" ∧
    extractDialogflowEntities (.stringValue "a\nb\n") = "a\nb\n" ∧
    extractDialogflowEntities (.boolValue true) = "true" ∧
    extractDialogflowEntities (.boolValue false) = "false" ∧
    extractDialogflowEntities .nullValue = "" ∧
    extractDialogflowEntities .unset = "" ∧
    extractDialogflowEntities .nilPtr = "" := by
  refine ⟨fun s => ?_, ?_, ?_, ?_, ?_, ?_, ?_, ?_⟩ <;>
    simp [extractDialogflowEntities, FormatBool]

/-- C5: fields whose key is not amount, unit or date_time are ignored: removing them leaves the
flattening of an object unchanged, and an object none of whose keys is one of the three
flattens to the empty string. -/
theorem unrecognized_fields_ignored (fields : List (String × Value)) :
    extractDialogflowEntities (.structValue (fields.filter recognizedEntry)) =
      extractDialogflowEntities (.structValue fields) ∧
    ((∀ kv ∈ fields, kv.1 ≠ "amount" ∧ kv.1 ≠ "unit" ∧ kv.1 ≠ "date_time") →
      extractDialogflowEntities (.structValue fields) = "") := by
  refine ⟨?_, fun h => ?_⟩
  · simp [extractDialogflowEntities, structLoop_eq, List.filter_filter]
  · have hnil : fields.filter recognizedEntry = [] := by
      rw [List.filter_eq_nil_iff]
      intro kv hkv
      have := h kv hkv
      simp [recognizedEntry, recognizedKeys, this.1, this.2.1, this.2.2]
    simp [extractDialogflowEntities, structLoop_eq, hnil, joinAll]

/-- C5, at the objects `{"color": "red"}` and `{}`: no key is one of the three names and the
flattening is empty. -/
theorem unrecognized_fields_ignored_witness :
    (∀ kv ∈ [("color", Value.stringValue "red")],
      kv.1 ≠ "amount" ∧ kv.1 ≠ "unit" ∧ kv.1 ≠ "date_time") ∧
    extractDialogflowEntities (.structValue [("color", .stringValue "red")]) = "" ∧
    extractDialogflowEntities (.structValue []) = "" :=
  ⟨by simp,
   (unrecognized_fields_ignored [("color", .stringValue "red")]).2 (by simp),
   (unrecognized_fields_ignored []).2 (by simp)⟩

/-- C1, refuted as stated: the object with amount = 2.5 and unit = "kg", visited unit first,
flattens to "kg\n2.500000\n" and not to "2.500000\nkg\n"; visited amount first the same
object gives "2.500000\nkg\n". -/
theorem fixed_order_fails :
    List.Perm [("unit", Value.stringValue "kg"), ("amount", .numberValue (.finite false 5 (-1)))]
      [("amount", .numberValue (.finite false 5 (-1))), ("unit", .stringValue "kg")] ∧
    extractDialogflowEntities
      (.structValue [("unit", .stringValue "kg"), ("amount", .numberValue (.finite false 5 (-1)))])
      = "kg\n2.500000\n" ∧
    extractDialogflowEntities
      (.structValue [("unit", .stringValue "kg"), ("amount", .numberValue (.finite false 5 (-1)))])
      ≠ "2.500000\nkg\n" ∧
    extractDialogflowEntities
      (.structValue [("amount", .numberValue (.finite false 5 (-1))), ("unit", .stringValue "kg")])
      = "2.500000\nkg\n" := by
  refine ⟨List.Perm.swap _ _ _, by decide, by decide, by decide⟩

/-- C1, amended: for every object and every order in which its fields are visited, the
flattening is the concatenation of the segments of its amount, unit and date_time fields in
the order visited; whenever they are visited in the order amount, unit, date_time it is the
fixed-order text of the specification, and then an object with amount = 2.5, unit = "kg" and
no date_time gives exactly "2.500000\nkg\n". -/
theorem visit_order_flatten (fields : List (String × Value)) :
    extractDialogflowEntities (.structValue fields) =
      joinAll ((fields.filter recognizedEntry).map
        (fun kv => (if kv.1 = "amount" then FormatFloat kv.2.GetNumberValue
                    else kv.2.GetStringValue) ++ "\n")) ∧
    (((fields.filter recognizedEntry).map Prod.fst).Sublist recognizedKeys →
      extractDialogflowEntities (.structValue fields) = fixedOrderFlatten fields ∧
      (fields.lookup "amount" = some (.numberValue (.finite false 5 (-1))) →
        fields.lookup "unit" = some (.stringValue "kg") →
        fields.lookup "date_time" = none →
        extractDialogflowEntities (.structValue fields) = "2.500000\nkg\n")) := by
  have hseg : (fun kv : String × Value =>
      (if kv.1 = "amount" then FormatFloat kv.2.GetNumberValue
       else kv.2.GetStringValue) ++ "\n") = segment := by
    funext kv; simp [segment, fieldText]
  have h1 : extractDialogflowEntities (.structValue fields) =
      joinAll ((fields.filter recognizedEntry).map segment) := by
    simp [extractDialogflowEntities, structLoop_eq]
  refine ⟨by rw [hseg]; exact h1, fun h => ?_⟩
  have h2 : extractDialogflowEntities (.structValue fields) = fixedOrderFlatten fields := by
    rw [h1, joinAll_fixed_order _ h]
    simp only [fixedOrderFlatten]
    rw [lookup_filter_recognized "amount" (by decide),
      lookup_filter_recognized "unit" (by decide),
      lookup_filter_recognized "date_time" (by decide)]
  refine ⟨h2, fun ha hu hd => ?_⟩
  rw [h2]
  simp only [fixedOrderFlatten, ha, hu, hd]
  decide

/-- C1, amended, at the object with amount = 2.5 and unit = "kg" (and a field of another
name): visited amount first the result is "2.500000\nkg\n", visited unit first the segments
come in that order, "kg\n2.500000\n". -/
theorem visit_order_flatten_witness :
    (([("amount", Value.numberValue (.finite false 5 (-1))), ("color", .stringValue "red"),
        ("unit", .stringValue "kg")].filter recognizedEntry).map Prod.fst).Sublist
      recognizedKeys ∧
    extractDialogflowEntities
      (.structValue [("amount", .numberValue (.finite false 5 (-1))), ("color", .stringValue "red"),
        ("unit", .stringValue "kg")]) = "2.500000\nkg\n" ∧
    extractDialogflowEntities
      (.structValue [("unit", .stringValue "kg"), ("color", .stringValue "red"),
        ("amount", .numberValue (.finite false 5 (-1)))]) = "kg\n2.500000\n" :=
  ⟨by decide,
   ((visit_order_flatten [("amount", .numberValue (.finite false 5 (-1))),
      ("color", .stringValue "red"), ("unit", .stringValue "kg")]).2 (by decide)).2
        (by simp [List.lookup]) (by simp [List.lookup]) (by simp [List.lookup]),
   (visit_order_flatten [("unit", .stringValue "kg"), ("color", .stringValue "red"),
      ("amount", .numberValue (.finite false 5 (-1)))]).1.trans (by decide)⟩

/-- C3, refuted as stated: under amount a string value "x" adds "0.000000\n" and not "x\n";
under unit or date_time the number 5 adds "\n" and not "5.000000\n". -/
theorem verbatim_any_key_fails :
    extractDialogflowEntities (.structValue [("amount", .stringValue "x")]) = "0.000000\n" ∧
    extractDialogflowEntities (.structValue [("amount", .stringValue "x")]) ≠ "x\n" ∧
    extractDialogflowEntities (.structValue [("unit", .numberValue (.finite false 5 0))]) = "\n" ∧
    extractDialogflowEntities (.structValue [("unit", .numberValue (.finite false 5 0))])
      ≠ "5.000000\n" ∧
    extractDialogflowEntities (.structValue [("date_time", .numberValue (.finite false 5 0))])
      = "\n" := by
  refine ⟨by decide, by decide, by decide, by decide, by decide⟩

/-- C3, amended: for a key among amount, unit, date_time the loop body appends one text and one
newline; under amount the text is the 6-decimal format of the number value (of 0 when the value
is not a number, so "0.000000" for a string), under unit and date_time it is the string value
verbatim (the empty string when the value is not a string, so for a number). -/
theorem field_text_by_key (acc key : String) (value : Value) (h : key ∈ recognizedKeys) :
    structStep acc key value =
      acc ++ (if key = "amount" then FormatFloat value.GetNumberValue
              else value.GetStringValue) ++ "\n" ∧
    (∀ x : Float64, structStep acc "amount" (.numberValue x) = acc ++ FormatFloat x ++ "\n") ∧
    (∀ s : String, structStep acc "unit" (.stringValue s) = acc ++ s ++ "\n") ∧
    (∀ s : String, structStep acc "date_time" (.stringValue s) = acc ++ s ++ "\n") ∧
    (∀ s : String, structStep acc "amount" (.stringValue s) = acc ++ "0.000000" ++ "\n") ∧
    (∀ x : Float64, structStep acc "unit" (.numberValue x) = acc ++ "" ++ "\n") ∧
    (∀ x : Float64, structStep acc "date_time" (.numberValue x) = acc ++ "" ++ "\n") := by
  have hfz : FormatFloat Float64.zero = "0.000000" := by decide
  refine ⟨?_, ?_, ?_, ?_, ?_, ?_, ?_⟩
  · rw [structStep_recognized acc key value (by simpa [recognizedEntry] using h)]
    simp [segment, fieldText, String.append_assoc]
  all_goals intro x
  all_goals simp [structStep, Value.GetNumberValue, Value.GetStringValue, hfz]

/-- C3, amended, at key unit with the string "kg" appended to "2.500000\n". -/
theorem field_text_by_key_witness :
    "unit" ∈ recognizedKeys ∧
    structStep "2.500000\n" "unit" (.stringValue "kg") = "2.500000\nkg\n" :=
  ⟨by decide,
   ((field_text_by_key "2.500000\n" "unit" (.stringValue "kg") (by decide)).1).trans
     (by decide)⟩

/-- C10: whatever the order in which the fields of an object are visited, the flattening is the
concatenation of one newline-terminated segment per key among amount, unit, date_time that the
object has (k of them, 0 to 3), so it is non-empty, and then ends with a newline, exactly when
such a key is present; a value that is null, a boolean, an object or a list is not recursed
into and gives the segment "0.000000\n" under amount and "\n" under unit and date_time. -/
theorem object_segments (fields order : List (String × Value))
    (hkeys : (fields.map Prod.fst).Nodup) (hperm : order.Perm fields) :
    extractDialogflowEntities (.structValue order) =
      joinAll ((order.filter recognizedEntry).map
        (fun kv => (if kv.1 = "amount" then FormatFloat kv.2.GetNumberValue
                    else kv.2.GetStringValue) ++ "\n")) ∧
    ((order.filter recognizedEntry).map Prod.fst).Perm (presentKeys fields) ∧
    (order.filter recognizedEntry).length = (presentKeys fields).length ∧
    (presentKeys fields).length ≤ 3 ∧
    (extractDialogflowEntities (.structValue order) ≠ "" ↔ 0 < (presentKeys fields).length) ∧
    ((extractDialogflowEntities (.structValue order)).data.getLast? = some '\n' ↔
      0 < (presentKeys fields).length) ∧
    (∀ (b : Bool) (fs : List (String × Value)) (vs : List Value) (v : Value),
      v ∈ [Value.nullValue, .boolValue b, .structValue fs, .listValue vs] →
        extractDialogflowEntities (.structValue [("amount", v)]) = "0.000000\n" ∧
        extractDialogflowEntities (.structValue [("unit", v)]) = "\n" ∧
        extractDialogflowEntities (.structValue [("date_time", v)]) = "\n") := by
  have hseg : (fun kv : String × Value =>
      (if kv.1 = "amount" then FormatFloat kv.2.GetNumberValue
       else kv.2.GetStringValue) ++ "\n") = segment := by
    funext kv; simp [segment, fieldText]
  have hfz : FormatFloat Float64.zero = "0.000000" := by decide
  have hp := visited_keys_perm fields order hkeys hperm
  have hlen : (order.filter recognizedEntry).length = (presentKeys fields).length := by
    simpa using hp.length_eq
  have hres : extractDialogflowEntities (.structValue order) =
      joinAll ((order.filter recognizedEntry).map segment) := by
    simp [extractDialogflowEntities, structLoop_eq]
  have hpos : 0 < (presentKeys fields).length ↔ order.filter recognizedEntry ≠ [] := by
    rw [← hlen, List.length_pos]
  refine ⟨by rw [hseg]; exact hres, hp, hlen, ?_, ?_, ?_, ?_⟩
  · unfold presentKeys
    exact (List.length_filter_le _ _).trans (by simp [recognizedKeys])
  · rw [hres, hpos, Ne, joinAll_segments_empty_iff]
  · rw [hres, hpos]
    constructor
    · intro h hnil
      rw [hnil] at h
      simp [joinAll] at h
    · exact joinAll_segments_last _
  · intro b fs vs v hv
    simp only [List.mem_cons, List.mem_singleton, List.not_mem_nil, or_false] at hv
    rcases hv with rfl | rfl | rfl | rfl <;>
      simp [extractDialogflowEntities, structLoop, structStep, Value.GetNumberValue,
        Value.GetStringValue, hfz]

/-- C10 at the object with amount = null, unit = true and a field named color, visited in
another order than stored: two segments, "\n" and "0.000000\n". -/
theorem object_segments_witness :
    ([("amount", Value.nullValue), ("color", Value.stringValue "red"),
        ("unit", Value.boolValue true)].map Prod.fst).Nodup ∧
    List.Perm
      [("unit", Value.boolValue true), ("amount", Value.nullValue),
        ("color", Value.stringValue "red")]
      [("amount", Value.nullValue), ("color", Value.stringValue "red"),
        ("unit", Value.boolValue true)] ∧
    extractDialogflowEntities
      (.structValue [("unit", .boolValue true), ("amount", .nullValue),
        ("color", .stringValue "red")]) = "\n0.000000\n" :=
  have hp : List.Perm
      [("unit", Value.boolValue true), ("amount", Value.nullValue),
        ("color", Value.stringValue "red")]
      [("amount", Value.nullValue), ("color", Value.stringValue "red"),
        ("unit", Value.boolValue true)] :=
    (List.Perm.swap _ _ _).trans (List.Perm.cons _ (List.Perm.swap _ _ _))
  ⟨by decide, hp,
   (object_segments _ _ (by decide) hp).1.trans (by decide)⟩

/-- C6: the flattener returns on every value: with a call stack deeper than the nesting depth of
the value the bounded run returns the string the function denotes, whatever the value (nil
pointer, unset kind, nested lists and objects included); the nil pointer and the unset kind
give the empty string. -/
theorem flatten_returns (v : Value) (k : Nat) :
    extractFuel (v.depth + 1 + k) v = some (extractDialogflowEntities v) ∧
    extractDialogflowEntities .nilPtr = "" ∧
    extractDialogflowEntities .unset = "" ∧
    extractDialogflowEntities (.listValue [.nilPtr, .listValue [.structValue [("unit", .unset)]]])
      = "\n" := by
  refine ⟨extractFuel_eq _ v (by omega), ?_, ?_, ?_⟩ <;>
    simp [extractDialogflowEntities, listLoop, structLoop, structStep, Value.GetStringValue]

/-- C7, refuted as stated: two executions on the same object, one visiting unit first and one
visiting date_time first, return different strings. -/
theorem purity_fails :
    SameValue
      (.structValue [("unit", .stringValue "kg"), ("date_time", .stringValue "2021-05-18")])
      (.structValue [("date_time", .stringValue "2021-05-18"), ("unit", .stringValue "kg")]) ∧
    extractDialogflowEntities
      (.structValue [("unit", .stringValue "kg"), ("date_time", .stringValue "2021-05-18")])
      = "kg\n2021-05-18\n" ∧
    extractDialogflowEntities
      (.structValue [("date_time", .stringValue "2021-05-18"), ("unit", .stringValue "kg")])
      = "2021-05-18\nkg\n" ∧
    extractDialogflowEntities
      (.structValue [("unit", .stringValue "kg"), ("date_time", .stringValue "2021-05-18")]) ≠
    extractDialogflowEntities
      (.structValue [("date_time", .stringValue "2021-05-18"), ("unit", .stringValue "kg")]) := by
  refine ⟨SameValue.fields (List.Perm.swap _ _ _), by decide, by decide, by decide⟩

/-- C7, amended: any two executions on the same value return the same string exactly when the
segments of the object that decides the result commute under concatenation (`orderFree`); that
holds for every scalar, null, nil and unset value, for every object with at most one of the
keys amount, unit, date_time, for the empty list and for every list whose last element is such
a value, whatever the elements before it. -/
theorem flatten_order_independent (v : Value) :
    (orderFree v = true ↔
      ∀ w₁ w₂ : Value, SameValue v w₁ → SameValue v w₂ →
        extractDialogflowEntities w₁ = extractDialogflowEntities w₂) ∧
    (∀ fields : List (String × Value), (fields.filter recognizedEntry).length ≤ 1 →
      orderFree (.structValue fields) = true) ∧
    (∀ (xs : List Value) (last : Value),
      orderFree (.listValue (xs ++ [last])) = orderFree last) ∧
    orderFree (.listValue []) = true ∧
    (∀ (s : String) (x : Float64) (b : Bool),
      orderFree (.stringValue s) = true ∧ orderFree (.numberValue x) = true ∧
      orderFree (.boolValue b) = true ∧ orderFree .nullValue = true ∧
      orderFree .nilPtr = true ∧ orderFree .unset = true) := by
  refine ⟨⟨?_, ?_⟩, ?_, ?_, rfl, fun _ _ _ => ⟨rfl, rfl, rfl, rfl, rfl, rfl⟩⟩
  · intro hf w₁ w₂ h₁ h₂
    have e₁ := (sameValue_invariants h₁).2.2.2.2.1 hf
    have e₂ := (sameValue_invariants h₂).2.2.2.2.1 hf
    exact e₁.symm.trans e₂
  · intro hall
    by_contra hf
    have hfalse : orderFree v = false := by simpa using hf
    obtain ⟨w, hs, hne⟩ := order_sensitive (Value.depth v) v (le_refl _) hfalse
    exact hne (hall v w (SameValue.refl v) hs)
  · intro fields hlen
    simp only [orderFree]
    rw [commuting_iff]
    intro s hs t ht
    match hfl : fields.filter recognizedEntry, hlen with
    | [], _ => simp [hfl] at hs
    | [x], _ =>
      simp only [hfl, List.map_cons, List.map_nil, List.mem_singleton] at hs ht
      rw [hs, ht]
  · intro xs last
    simp only [orderFree]
    exact orderFreeFrom_append xs last true

/-- C7, amended, at the list whose first element is an object with the keys unit and date_time
and whose last element is an object with the keys color and unit: the two executions that
visit the fields of both objects in opposite orders return the same string. -/
theorem flatten_order_independent_witness :
    orderFree (.listValue
      [.structValue [("unit", .stringValue "kg"), ("date_time", .stringValue "2021-05-18")],
       .structValue [("color", .stringValue "red"), ("unit", .stringValue "kg")]]) = true ∧
    SameValue
      (.listValue
        [.structValue [("unit", .stringValue "kg"), ("date_time", .stringValue "2021-05-18")],
         .structValue [("color", .stringValue "red"), ("unit", .stringValue "kg")]])
      (.listValue
        [.structValue [("date_time", .stringValue "2021-05-18"), ("unit", .stringValue "kg")],
         .structValue [("unit", .stringValue "kg"), ("color", .stringValue "red")]]) ∧
    extractDialogflowEntities (.listValue
        [.structValue [("unit", .stringValue "kg"), ("date_time", .stringValue "2021-05-18")],
         .structValue [("color", .stringValue "red"), ("unit", .stringValue "kg")]]) =
      extractDialogflowEntities (.listValue
        [.structValue [("date_time", .stringValue "2021-05-18"), ("unit", .stringValue "kg")],
         .structValue [("unit", .stringValue "kg"), ("color", .stringValue "red")]]) :=
  have hs : SameValue
      (.listValue
        [.structValue [("unit", .stringValue "kg"), ("date_time", .stringValue "2021-05-18")],
         .structValue [("color", .stringValue "red"), ("unit", .stringValue "kg")]])
      (.listValue
        [.structValue [("date_time", .stringValue "2021-05-18"), ("unit", .stringValue "kg")],
         .structValue [("unit", .stringValue "kg"), ("color", .stringValue "red")]]) :=
    (SameValue.head (SameValue.fields (List.Perm.swap _ _ _))).trans
      (SameValue.tail (SameValue.head (SameValue.fields (List.Perm.swap _ _ _))))
  ⟨by decide, hs,
   ((flatten_order_independent _).1.1 (by decide)) _ _ (SameValue.refl _) hs⟩

/-- C9, refuted as stated: a response without query result has no parameters, and `processNLP`
stops at `queryResult.Intent` without building a table. -/
theorem table_not_built :
    processNLP ⟨none⟩ = none ∧ ¬ ∃ r : NLPResponse, processNLP ⟨none⟩ = some r := by
  refine ⟨rfl, ?_⟩
  rintro ⟨r, hr⟩
  cases hr

/-- C9, amended: for every response that carries a query result, `processNLP` returns a result
whose entity table is not nil, has the parameter names of the response as its keys, none
dropped and none added, and maps each name to the flattening of the value of that parameter,
with or without an intent; without parameters the table is empty. -/
theorem entity_table (response : DetectIntentResponse) (queryResult : QueryResult)
    (hq : response.QueryResult = some queryResult)
    (hkeys : ((GetFields queryResult.Parameters).map Prod.fst).Nodup) :
    ∃ (r : NLPResponse) (table : List (String × String)),
      processNLP response = some r ∧ r.Entities = some table ∧
      table = (GetFields queryResult.Parameters).map
        (fun kv => (kv.1, extractDialogflowEntities kv.2)) ∧
      table.map Prod.fst = (GetFields queryResult.Parameters).map Prod.fst ∧
      (∀ (name : String) (p : Value), (name, p) ∈ GetFields queryResult.Parameters →
        table.lookup name = some (extractDialogflowEntities p)) ∧
      (GetFields queryResult.Parameters = [] → table = []) := by
  have hloop : (if (GetFields queryResult.Parameters).length > 0
        then paramsLoop [] (GetFields queryResult.Parameters) else []) =
      (GetFields queryResult.Parameters).map
        (fun kv => (kv.1, extractDialogflowEntities kv.2)) := by
    split
    · rw [paramsLoop_eq _ [] (by simpa using hkeys)]
      simp
    · next h =>
      have : GetFields queryResult.Parameters = [] := by
        simpa [List.length_eq_zero] using h
      simp [this]
  have hret : ∃ r : NLPResponse, processNLP response = some r ∧
      r.Entities = some ((GetFields queryResult.Parameters).map
        (fun kv => (kv.1, extractDialogflowEntities kv.2))) := by
    simp only [processNLP, hq, hloop]
    exact ⟨_, rfl, rfl⟩
  obtain ⟨r, hr, he⟩ := hret
  refine ⟨r, _, hr, he, rfl, ?_, ?_, ?_⟩
  · simp [List.map_map, Function.comp_def]
  · intro name p hmem
    exact lookup_flattened _ hkeys name p hmem
  · intro h
    simp [h]

/-- C9, amended, at a response without intent whose parameters are drink = "Coffee" and an
object size. -/
theorem entity_table_witness :
    (DetectIntentResponse.mk (some sampleQueryResult)).QueryResult = some sampleQueryResult ∧
    ((GetFields sampleQueryResult.Parameters).map Prod.fst).Nodup ∧
    ∃ (r : NLPResponse) (table : List (String × String)),
      processNLP ⟨some sampleQueryResult⟩ = some r ∧ r.Entities = some table ∧
      table = [("drink", "Coffee"), ("size", "2.500000\nkg\n")] := by
  obtain ⟨r, table, hr, he, ht, _⟩ :=
    entity_table ⟨some sampleQueryResult⟩ sampleQueryResult rfl (by decide)
  exact ⟨rfl, by decide, r, table, hr, he, ht.trans (by decide)⟩

/-- C4, refuted as stated: for the numbers NaN, +Inf and -Inf the flattening is "NaN", "+Inf"
and "-Inf", which have no decimal point and no digit. -/
theorem nonfinite_number_format :
    extractDialogflowEntities (.numberValue .nan) = "NaN" ∧
    extractDialogflowEntities (.numberValue (.inf false)) = "+Inf" ∧
    extractDialogflowEntities (.numberValue (.inf true)) = "-Inf" ∧
    '.' ∉ (extractDialogflowEntities (.numberValue .nan)).data ∧
    (∀ c ∈ (extractDialogflowEntities (.numberValue .nan)).data, c.isDigit = false) := by
  refine ⟨by decide, by decide, by decide, by decide, by decide⟩

/-- C4, amended: for every finite number the flattening is an optional minus sign, one or more
decimal digits, a point and exactly six decimal digits, and the digits denote the integer
nearest to the magnitude of the number times 10^6 (so no exponent, whatever the magnitude);
3.0 gives "3.000000", 10^21 gives "1000000000000000000000.000000" and 1/128 gives
"0.007812". -/
theorem finite_number_format (neg : Bool) (mant : Nat) (exp : Int) :
    (∃ (digits frac : List Char) (q : Nat),
      (extractDialogflowEntities (.numberValue (.finite neg mant exp))).data =
        (if neg then ['-'] else []) ++ digits ++ '.' :: frac ∧
      digits ≠ [] ∧ (∀ c ∈ digits, c.isDigit = true) ∧
      frac.length = 6 ∧ (∀ c ∈ frac, c.isDigit = true) ∧
      decimalValue digits * 10 ^ 6 + decimalValue frac = q ∧
      |(|(Float64.finite neg mant exp).toRat| * 10 ^ 6 - (q : ℚ))| ≤ 1 / 2) ∧
    extractDialogflowEntities (.numberValue (.finite false 3 0)) = "3.000000" ∧
    extractDialogflowEntities (.numberValue (.finite false 476837158203125 21))
      = "1000000000000000000000.000000" ∧
    extractDialogflowEntities (.numberValue (.finite true 1 (-7))) = "-0.007812" := by
  refine ⟨?_, by decide, by decide, by decide⟩
  obtain ⟨r1, r2, r3⟩ := repr_spec (scaledRound mant exp / 10 ^ 6)
  obtain ⟨f1, f2, f3⟩ := fracDigits_spec (scaledRound mant exp)
  refine ⟨(Nat.repr (scaledRound mant exp / 10 ^ 6)).data, fracDigits (scaledRound mant exp),
    scaledRound mant exp, ?_, r1, r2, f1, f2, ?_, ?_⟩
  · cases neg <;> simp [extractDialogflowEntities, FormatFloat, String.data_append]
  · rw [r3, f3]
    exact Nat.div_add_mod' _ _
  · rw [abs_toRat_finite]
    exact scaledRound_near mant exp

end DialogflowBot
